import Mathlib

/-!
Verification of the YAML store (`yaml/store.go`) of the sops
structured-document secrets encryptor.

The store converts between the native YAML parser's dynamic values and the
generic tree model.  Go's `interface{}` universe is embedded as the inductive
type `Value`: scalars, `[]interface{}` (`slice`), `map[interface{}]interface{}`
(`goMap`), the ordered `yaml.MapSlice` (`mapSlice`), and the typed
`sops.TreeBranch` (`treeBranch`).  A Go type switch becomes a match on the
constructor; a failed unchecked type assertion (a Go panic) is modelled by an
`Option` result being `none`.
-/

/-- The dynamic value universe of the store: Go `interface{}` values as they
occur in the YAML store.  `goMap` entries are listed in the order Go's `range`
presents them; `mapSlice` entries are in parsed document order. -/
inductive Value where
  | str (s : String)
  | boolean (b : Bool)
  | int (n : Int)
  | null
  | slice (xs : List Value)
  | goMap (entries : List (Value × Value))
  | mapSlice (entries : List (Value × Value))
  | treeBranch (items : List (String × Value))

/-- A generic tree item: key and value (`sops.TreeItem`, key is a Go string). -/
abbrev TreeItem := String × Value

/-- The generic ordered tree (`sops.TreeBranch`). -/
abbrev TreeBranch := List TreeItem

/-- The Go type assertion `x.(string)`: succeeds only on a string value;
any other dynamic type panics (`none`). -/
def asString : Value → Option String
  | .str s => some s
  | _ => none

/-- The comma-ok type assertion `x.([]interface{})`: `some` on a slice,
`none` (ok = false, no panic) otherwise. -/
def asSliceOk : Value → Option (List Value)
  | .slice xs => some xs
  | _ => none

/-- The Go type assertion `x.(map[interface{}]interface{})`: panics (`none`)
unless the value is a Go map. -/
def asGoMapAssert : Value → Option (List (Value × Value))
  | .goMap m => some m
  | _ => none

mutual

/-- `yamlValueToTreeValue` of the store: type switch converting a parsed YAML
value into a generic tree value.  Go maps and MapSlices become branches,
slices are converted element-wise in place, anything else is returned
unchanged (the `default` case). -/
def yamlValueToTreeValue : Value → Option Value
  | .goMap entries => (yamlMapToTreeBranch entries).map Value.treeBranch
  | .mapSlice entries => (mapSliceToTreeBranch entries).map Value.treeBranch
  | .slice xs => (yamlSliceToTreeValue xs).map Value.slice
  | v => some v

/-- `mapSliceToTreeBranch` of the store: each MapSlice item's key is asserted
to be a string (panic = `none` otherwise) and its value converted; entries
are appended in order. -/
def mapSliceToTreeBranch : List (Value × Value) → Option TreeBranch
  | [] => some []
  | (k, v) :: rest =>
    match asString k, yamlValueToTreeValue v, mapSliceToTreeBranch rest with
    | some ks, some tv, some br => some ((ks, tv) :: br)
    | _, _, _ => none

/-- `yamlMapToTreeBranch` of the store: converts a Go map (iterated in the
order its entries are listed) into a branch, asserting each key is a string. -/
def yamlMapToTreeBranch : List (Value × Value) → Option TreeBranch
  | [] => some []
  | (k, v) :: rest =>
    match asString k, yamlValueToTreeValue v, yamlMapToTreeBranch rest with
    | some ks, some tv, some br => some ((ks, tv) :: br)
    | _, _, _ => none

/-- `yamlSliceToTreeValue` of the store: converts each element of a
`[]interface{}` in place, preserving positions. -/
def yamlSliceToTreeValue : List Value → Option (List Value)
  | [] => some []
  | x :: rest =>
    match yamlValueToTreeValue x, yamlSliceToTreeValue rest with
    | some y, some ys => some (y :: ys)
    | _, _ => none

end

mutual

/-- `treeValueToYamlValue` of the store: a nested branch becomes a MapSlice;
every other value (scalars, and also plain slices) is returned unchanged. -/
def treeValueToYamlValue : Value → Value
  | .treeBranch items => .mapSlice (treeBranchToYamlMap items)
  | v => v

/-- `treeBranchToYamlMap` of the store: each tree item becomes a MapSlice
item with the same (string) key and the converted value, in branch order. -/
def treeBranchToYamlMap : TreeBranch → List (Value × Value)
  | [] => []
  | (k, v) :: rest => (Value.str k, treeValueToYamlValue v) :: treeBranchToYamlMap rest

end

/-- The Go comparison `item.Key == "sops"` on an `interface{}` key: true only
for the string `"sops"` (interface equality with differing dynamic types is
false, never a panic against the comparable string literal). -/
def keyIsSops : Value → Bool
  | .str s => s == "sops"
  | _ => false

/-- The delete-during-range loop of `Load`: `for i, item := range data` with
`data = append(data[:i], data[i+1:]...)` in the body.  Go's `range` captures
the original slice header (length `n`) but reads each `item` through the
shared backing array, which the in-place `append` mutates.  The state is the
backing array `arr` (always length `n`) plus the live slice length `m`.
Deleting at `i` shifts `arr[i+1..m-1]` down one slot and leaves
`arr[m-1..n-1]` untouched; the slice expression `data[i+1:]` panics (`none`)
when `i + 1` exceeds the live length `m`. -/
def sopsStripLoop (arr : List (Value × Value)) (m i : Nat) :
    Nat → Option (List (Value × Value) × Nat)
  | 0 => some (arr, m)
  | fuel + 1 =>
    match arr[i]? with
    | none => none
    | some e =>
      if keyIsSops e.1 then
        if i + 1 ≤ m then
          sopsStripLoop
            (arr.take i ++ (arr.drop (i + 1)).take (m - (i + 1)) ++ arr.drop (m - 1))
            (m - 1) (i + 1) fuel
        else
          none
      else
        sopsStripLoop arr m (i + 1) fuel

/-- The metadata-stripping pass of `Load`: run the loop over the parsed
MapSlice and keep the first `m` entries of the final backing array. -/
def sopsStrip (data : List (Value × Value)) : Option (List (Value × Value)) :=
  (sopsStripLoop data data.length 0 data.length).map fun r => r.1.take r.2

/-- `Load` of the store, as a function of the result of the external
`yaml.Unmarshal` into a `yaml.MapSlice`: a parse error is returned at once
with no tree; otherwise the `"sops"` entry is stripped by the range loop and
the rest converted by `mapSliceToTreeBranch` (`none` = panic on a non-string
key). -/
def Load (parsed : Except String (List (Value × Value))) :
    Option (Except String TreeBranch) :=
  match parsed with
  | .error e => some (.error ("Error unmarshaling input YAML: " ++ e))
  | .ok data =>
    match sopsStrip data with
    | none => none
    | some stripped => (mapSliceToTreeBranch stripped).map Except.ok

/-- A parsed timestamp value (`time.Time` restricted to what the store
produces); represented by its canonical RFC3339-like rendering. -/
abbrev Time := String

/-- Modelled from the spec: the timestamp format is fixed and RFC3339-like
(`lastmodified: <RFC3339-like timestamp, fixed format>`, layout
`2006-01-02T15:04:05Z`); `time.Parse` is standard-library code outside this
repository.  A string parses exactly when it has the shape
`DDDD-DD-DDTDD:DD:DDZ` with `D` a decimal digit. -/
def validTimestamp (s : String) : Bool :=
  match s.toList with
  | [y1, y2, y3, y4, '-', m1, m2, '-', d1, d2, 'T',
     h1, h2, ':', n1, n2, ':', c1, c2, 'Z'] =>
    [y1, y2, y3, y4, m1, m2, d1, d2, h1, h2, n1, n2, c1, c2].all Char.isDigit
  | _ => false

/-- Modelled from the spec: `time.Parse(sops.DateFormat, s)` — the parsed
time of a valid fixed-format timestamp, or a parse error (`none`). -/
def parseDate (s : String) : Option Time :=
  if validTimestamp s then some s else none

/-- Modelled from the spec: `kms.KMSMasterKey` of the core package (not under
`src/`) — a cloud-KMS master key with ARN, optional role, wrapped data key
blob and creation timestamp, exactly the fields the store populates. -/
structure KMSMasterKey where
  Arn : String
  Role : String
  EncryptedKey : String
  CreationDate : Time
deriving DecidableEq

/-- Modelled from the spec: `pgp.GPGMasterKey` of the core package (not under
`src/`) — a PGP master key with fingerprint, wrapped data key blob and
creation timestamp. -/
structure GPGMasterKey where
  Fingerprint : String
  EncryptedKey : String
  CreationDate : Time
deriving DecidableEq

/-- Modelled from the spec: the polymorphic `sops.MasterKey` capability
interface, as the tagged variant over the two backend kinds the store
constructs. -/
inductive MasterKey where
  | kms (k : KMSMasterKey)
  | pgp (k : GPGMasterKey)
deriving DecidableEq

/-- Modelled from the spec: `sops.KeySource` — a named collection of master
keys of one backend kind. -/
structure KeySource where
  Name : String
  Keys : List MasterKey
deriving DecidableEq

/-- Modelled from the spec: `sops.Metadata` of the core package (not under
`src/`) — version, unencrypted suffix, last-modified timestamp, document MAC
and the ordered key sources, exactly the fields the store populates. -/
structure Metadata where
  MessageAuthenticationCode : String
  LastModified : Time
  UnencryptedSuffix : String
  Version : String
  KeySources : List KeySource
deriving DecidableEq

/-- A Go map index expression `m[k]` with a string key: the value of the
first entry whose key is the string `k`, or `nil` when absent. -/
def lookupGo (m : List (Value × Value)) (k : String) : Value :=
  match m.find? fun e => match e.1 with | .str t => t == k | _ => false with
  | some e => e.2
  | none => .null

/-- The body of `kmsEntries`' loop over the `kms` list.  Each element is
asserted to be a map (panic = `none`), `arn` and `enc` are asserted to be
strings, `role` is read with a comma-ok assertion (zero value `""` when
absent), and `created_at` is asserted to be a string and parsed; a date parse
failure aborts the loop with an error result. -/
def kmsEntriesLoop (acc : List MasterKey) :
    List Value → Option (Except String (List MasterKey))
  | [] => some (.ok acc)
  | v :: rest =>
    match asGoMapAssert v with
    | none => none
    | some entry =>
      match asString (lookupGo entry "arn") with
      | none => none
      | some arn =>
        match asString (lookupGo entry "enc") with
        | none => none
        | some enc =>
          let role := (asString (lookupGo entry "role")).getD ""
          match asString (lookupGo entry "created_at") with
          | none => none
          | some ca =>
            match parseDate ca with
            | none => some (.error "Could not parse creation date")
            | some creationDate =>
              kmsEntriesLoop
                (acc ++ [MasterKey.kms ⟨arn, role, enc, creationDate⟩]) rest

/-- `kmsEntries` of the store: builds the `"kms"` KeySource from the parsed
`kms` list; `none` = panic on a malformed entry shape, an error result on an
unparseable `created_at`. -/
def kmsEntries (l : List Value) : Option (Except String KeySource) :=
  (kmsEntriesLoop [] l).map fun r => r.map fun keys => ⟨"kms", keys⟩

/-- The body of `pgpEntries`' loop over the `pgp` list: like the kms loop but
with `fp` instead of `arn` and no role. -/
def pgpEntriesLoop (acc : List MasterKey) :
    List Value → Option (Except String (List MasterKey))
  | [] => some (.ok acc)
  | v :: rest =>
    match asGoMapAssert v with
    | none => none
    | some entry =>
      match asString (lookupGo entry "fp") with
      | none => none
      | some fp =>
        match asString (lookupGo entry "enc") with
        | none => none
        | some enc =>
          match asString (lookupGo entry "created_at") with
          | none => none
          | some ca =>
            match parseDate ca with
            | none => some (.error "Could not parse creation date")
            | some creationDate =>
              pgpEntriesLoop (acc ++ [MasterKey.pgp ⟨fp, enc, creationDate⟩]) rest

/-- `pgpEntries` of the store: builds the `"pgp"` KeySource from the parsed
`pgp` list. -/
def pgpEntries (l : List Value) : Option (Except String KeySource) :=
  (pgpEntriesLoop [] l).map fun r => r.map fun keys => ⟨"pgp", keys⟩

/-- The `kms` block handling of `LoadMetadata`: when `data["kms"]` is a
slice (comma-ok assertion), the kms KeySource is appended only if
`kmsEntries` returned without error — an entries error silently drops the
whole source. -/
def kmsSourcesOf (data : List (Value × Value)) : Option (List KeySource) :=
  match asSliceOk (lookupGo data "kms") with
  | none => some []
  | some l =>
    (kmsEntries l).map fun r =>
      match r with
      | .ok ks => [ks]
      | .error _ => []

/-- The `pgp` block handling of `LoadMetadata`, like the kms one. -/
def pgpSourcesOf (data : List (Value × Value)) : Option (List KeySource) :=
  match asSliceOk (lookupGo data "pgp") with
  | none => some []
  | some l =>
    (pgpEntries l).map fun r =>
      match r with
      | .ok ks => [ks]
      | .error _ => []

/-- The field reads of `LoadMetadata` on the re-decoded `sops` map `data`:
`mac`, `lastmodified`, `unencrypted_suffix` and `version` are unchecked
string assertions (panic = `none` when absent or non-string), the
last-modified date parse failure is an error return, and the kms/pgp blocks
contribute their key sources in that fixed order. -/
def loadMetadataData (data : List (Value × Value)) :
    Option (Except String Metadata) :=
  match asString (lookupGo data "mac") with
  | none => none
  | some mac =>
    match asString (lookupGo data "lastmodified") with
    | none => none
    | some lmStr =>
      match parseDate lmStr with
      | none => some (.error "Could not parse last modified date")
      | some lastModified =>
        match asString (lookupGo data "unencrypted_suffix") with
        | none => none
        | some suffix =>
          match asString (lookupGo data "version") with
          | none => none
          | some version =>
            match kmsSourcesOf data with
            | none => none
            | some ksKms =>
              match pgpSourcesOf data with
              | none => none
              | some ksPgp =>
                some (.ok
                  { MessageAuthenticationCode := mac
                    LastModified := lastModified
                    UnencryptedSuffix := suffix
                    Version := version
                    KeySources := ksKms ++ ksPgp })

/-- Modelled from the spec: the `yaml.Marshal`/`yaml.Unmarshal` round trip
`LoadMetadata` applies to `encoded["sops"]` — external library code.  Per the
store contract a mapping re-decodes to the same mapping, the `nil` value
decodes to an empty map, and a scalar or sequence cannot be decoded into a
map and yields an unmarshal type error. -/
def remarshalToMap (v : Value) : Except String (List (Value × Value)) :=
  match v with
  | .goMap m => .ok m
  | .mapSlice m => .ok m
  | .null => .ok []
  | _ => .error "cannot unmarshal value into map"

/-- The part of `LoadMetadata` operating on the looked-up `sops` value:
re-marshal it into a map (an error there is returned as the call's error) and
read the metadata fields from it. -/
def loadMetadataFromSops (v : Value) : Option (Except String Metadata) :=
  match remarshalToMap v with
  | .error e => some (.error e)
  | .ok data => loadMetadataData data

/-- `LoadMetadata` of the store, as a function of the result of the external
`yaml.Unmarshal` of the whole document into a Go map: a parse error is
returned at once; otherwise only `encoded["sops"]` is consulted. -/
def LoadMetadata (parsed : Except String (List (Value × Value))) :
    Option (Except String Metadata) :=
  match parsed with
  | .error e => some (.error ("Error unmarshalling input yaml: " ++ e))
  | .ok encoded => loadMetadataFromSops (lookupGo encoded "sops")

/-- Modelled from the spec: `sops.Metadata.ToMap` of the core package (not
under `src/`) — the persisted metadata envelope of section 6, a mapping with
the four scalar fields and one list per key source, each master key
serialized to its persisted fields. -/
def metadataToMap (md : Metadata) : Value :=
  .goMap
    ([(.str "mac", .str md.MessageAuthenticationCode),
      (.str "lastmodified", .str md.LastModified),
      (.str "unencrypted_suffix", .str md.UnencryptedSuffix),
      (.str "version", .str md.Version)] ++
      md.KeySources.map fun ks =>
        (.str ks.Name,
          .slice (ks.Keys.map fun k =>
            match k with
            | .kms k =>
              .goMap [(.str "arn", .str k.Arn), (.str "role", .str k.Role),
                      (.str "enc", .str k.EncryptedKey),
                      (.str "created_at", .str k.CreationDate)]
            | .pgp k =>
              .goMap [(.str "fp", .str k.Fingerprint),
                      (.str "enc", .str k.EncryptedKey),
                      (.str "created_at", .str k.CreationDate)])))

mutual

/-- Valid generic tree values: a scalar, a nested branch, or a list of such
values — the shapes the tree model admits (never the yaml-side `goMap` or
`mapSlice`). -/
def isTreeValue : Value → Bool
  | .str _ => true
  | .boolean _ => true
  | .int _ => true
  | .null => true
  | .slice xs => isTreeValueList xs
  | .treeBranch items => isTreeBranch items
  | .goMap _ => false
  | .mapSlice _ => false

/-- Validity of every element of a list of tree values. -/
def isTreeValueList : List Value → Bool
  | [] => true
  | x :: rest => isTreeValue x && isTreeValueList rest

/-- Validity of every value of a tree branch (keys are strings by type). -/
def isTreeBranch : TreeBranch → Bool
  | [] => true
  | (_, v) :: rest => isTreeValue v && isTreeBranch rest

end

mutual

/-- Every mapping key at every depth of a parsed value is a string. -/
def allStringKeys : Value → Bool
  | .goMap entries => allStringKeysEntries entries
  | .mapSlice entries => allStringKeysEntries entries
  | .slice xs => allStringKeysList xs
  | _ => true

/-- Every key of the entry list is a string, and recursively in values. -/
def allStringKeysEntries : List (Value × Value) → Bool
  | [] => true
  | (k, v) :: rest =>
    (asString k).isSome && allStringKeys v && allStringKeysEntries rest

/-- All-string-keys, element-wise on a parsed sequence. -/
def allStringKeysList : List Value → Bool
  | [] => true
  | x :: rest => allStringKeys x && allStringKeysList rest

end

/-- A kms list entry whose shape satisfies all the unchecked assertions of
`kmsEntries`: a map with `arn`, `enc` and `created_at` present as strings. -/
def kmsEntryAssertsOk (v : Value) : Bool :=
  match v with
  | .goMap m =>
    (asString (lookupGo m "arn")).isSome &&
      (asString (lookupGo m "enc")).isSome &&
      (asString (lookupGo m "created_at")).isSome
  | _ => false

/-- A kms list entry whose `created_at` string parses as a timestamp. -/
def kmsEntryDateOk (v : Value) : Bool :=
  match v with
  | .goMap m =>
    match asString (lookupGo m "created_at") with
    | some s => (parseDate s).isSome
    | none => false
  | _ => false

/-- `Dump` of the store up to the external `yaml.Marshal`: the MapSlice
handed to the serializer. -/
def Dump (tree : TreeBranch) : List (Value × Value) :=
  treeBranchToYamlMap tree

/-- `DumpWithMetadata` of the store up to the external `yaml.Marshal`: the
tree's MapSlice with the `"sops"` metadata entry appended. -/
def DumpWithMetadata (tree : TreeBranch) (metadata : Metadata) :
    List (Value × Value) :=
  treeBranchToYamlMap tree ++ [(Value.str "sops", metadataToMap metadata)]

/-! Helper lemmas. -/

theorem treeBranchToYamlMap_length (tree : TreeBranch) :
    (treeBranchToYamlMap tree).length = tree.length := by
  induction tree with
  | nil => rfl
  | cons item rest ih =>
    obtain ⟨k, v⟩ := item
    simp [treeBranchToYamlMap, ih]

/-! Claim theorems. -/

/-- Claim C6: for every input text the native YAML parser rejects as
malformed, `Load` returns an error and no tree, and `LoadMetadata` returns an
error: the parse failure is surfaced immediately as a fatal error of the
call, never a partially built result. -/
theorem c6_parse_error_is_fatal (e : String) :
    Load (.error e) = some (.error ("Error unmarshaling input YAML: " ++ e)) ∧
    LoadMetadata (.error e) =
      some (.error ("Error unmarshalling input yaml: " ++ e)) :=
  ⟨rfl, rfl⟩

/-- Claim C7: `LoadMetadata` depends only on the metadata block — two parsed
documents with equal top-level `"sops"` values yield equal results, whatever
the rest of the two documents contain. -/
theorem c7_metadata_depends_only_on_sops (d1 d2 : List (Value × Value))
    (h : lookupGo d1 "sops" = lookupGo d2 "sops") :
    LoadMetadata (.ok d1) = LoadMetadata (.ok d2) := by
  simp only [LoadMetadata, h]

/-- Witness for C7 at two concrete documents differing outside the `"sops"`
entry. -/
theorem c7_metadata_depends_only_on_sops_witness :
    LoadMetadata (.ok [(Value.str "x", Value.int 1),
                       (Value.str "sops", Value.null)]) =
      LoadMetadata (.ok [(Value.str "sops", Value.null),
                         (Value.str "y", Value.str "z")]) :=
  c7_metadata_depends_only_on_sops
    [(Value.str "x", Value.int 1), (Value.str "sops", Value.null)]
    [(Value.str "sops", Value.null), (Value.str "y", Value.str "z")] rfl

/-- Claim C4: `DumpWithMetadata` serializes the tree's items first, in their
branch order and exactly as `Dump` would (no item altered or reordered),
followed by exactly one additional top-level entry with the reserved key
`"sops"` carrying the metadata envelope. -/
theorem c4_dump_with_metadata_appends_sops (tree : TreeBranch) (md : Metadata) :
    (DumpWithMetadata tree md).length = tree.length + 1 ∧
    (DumpWithMetadata tree md).take tree.length = Dump tree ∧
    (DumpWithMetadata tree md).drop tree.length =
      [(Value.str "sops", metadataToMap md)] := by
  refine ⟨?_, ?_, ?_⟩
  · simp [DumpWithMetadata, treeBranchToYamlMap_length]
  · exact List.take_left' (treeBranchToYamlMap_length tree)
  · exact List.drop_left' (treeBranchToYamlMap_length tree)

/-- Claim C1: the ordering presented by the parser is preserved: for each of
the three converters (`MapSlice` mappings, plain Go mappings, sequences), the
`i`-th output item is exactly the conversion of the `i`-th input entry, so
mapping entries and sequence elements keep their positions at every depth of
the recursive conversion. -/
theorem c1_parser_order_preserved :
    (∀ entries b, mapSliceToTreeBranch entries = some b →
      ∀ i : Nat, b[i]? = entries[i]?.bind fun e =>
        (asString e.1).bind fun ks =>
          (yamlValueToTreeValue e.2).map fun tv => (ks, tv)) ∧
    (∀ entries b, yamlMapToTreeBranch entries = some b →
      ∀ i : Nat, b[i]? = entries[i]?.bind fun e =>
        (asString e.1).bind fun ks =>
          (yamlValueToTreeValue e.2).map fun tv => (ks, tv)) ∧
    (∀ xs ys, yamlSliceToTreeValue xs = some ys →
      ∀ i : Nat, ys[i]? = xs[i]?.bind yamlValueToTreeValue) := by
  refine ⟨?_, ?_, ?_⟩
  · intro entries
    induction entries with
    | nil =>
      intro b hb i
      simp only [mapSliceToTreeBranch] at hb
      cases hb
      simp
    | cons e rest ih =>
      intro b hb i
      obtain ⟨k, v⟩ := e
      simp only [mapSliceToTreeBranch] at hb
      split at hb
      case _ ks tv br hk hv hr =>
        cases hb
        cases i with
        | zero => simp [hk, hv]
        | succ j => simpa using ih br hr j
      case _ => exact absurd hb (by simp)
  · intro entries
    induction entries with
    | nil =>
      intro b hb i
      simp only [yamlMapToTreeBranch] at hb
      cases hb
      simp
    | cons e rest ih =>
      intro b hb i
      obtain ⟨k, v⟩ := e
      simp only [yamlMapToTreeBranch] at hb
      split at hb
      case _ ks tv br hk hv hr =>
        cases hb
        cases i with
        | zero => simp [hk, hv]
        | succ j => simpa using ih br hr j
      case _ => exact absurd hb (by simp)
  · intro xs
    induction xs with
    | nil =>
      intro ys hy i
      simp only [yamlSliceToTreeValue] at hy
      cases hy
      simp
    | cons x rest ih =>
      intro ys hy i
      simp only [yamlSliceToTreeValue] at hy
      split at hy
      case _ y ts hx hr =>
        cases hy
        cases i with
        | zero => simp [hx]
        | succ j => simpa using ih ts hr j
      case _ => exact absurd hy (by simp)

mutual

theorem yamlValueToTreeValue_id :
    ∀ v : Value, isTreeValue v = true → yamlValueToTreeValue v = some v
  | .str _, _ => rfl
  | .boolean _, _ => rfl
  | .int _, _ => rfl
  | .null, _ => rfl
  | .treeBranch _, _ => rfl
  | .slice xs, h => by
    have hl : isTreeValueList xs = true := by simpa [isTreeValue] using h
    simp [yamlValueToTreeValue, yamlSliceToTreeValue_id xs hl]
  | .goMap entries, h => by simp [isTreeValue] at h
  | .mapSlice entries, h => by simp [isTreeValue] at h
termination_by v _ => (sizeOf v, 0)

theorem yamlSliceToTreeValue_id :
    ∀ xs : List Value, isTreeValueList xs = true → yamlSliceToTreeValue xs = some xs
  | [], _ => rfl
  | x :: rest, h => by
    have h1 : isTreeValue x = true := by
      have := h; simp [isTreeValueList] at this; exact this.1
    have h2 : isTreeValueList rest = true := by
      have := h; simp [isTreeValueList] at this; exact this.2
    simp [yamlSliceToTreeValue, yamlValueToTreeValue_id x h1,
      yamlSliceToTreeValue_id rest h2]
termination_by xs _ => (sizeOf xs, 0)

theorem treeBranch_roundtrip :
    ∀ items : TreeBranch, isTreeBranch items = true →
      mapSliceToTreeBranch (treeBranchToYamlMap items) = some items
  | [], _ => rfl
  | (k, v) :: rest, h => by
    have h1 : isTreeValue v = true := by
      have := h; simp [isTreeBranch] at this; exact this.1
    have h2 : isTreeBranch rest = true := by
      have := h; simp [isTreeBranch] at this; exact this.2
    simp [treeBranchToYamlMap, mapSliceToTreeBranch, asString,
      treeValue_roundtrip v h1, treeBranch_roundtrip rest h2]
termination_by items _ => (sizeOf items, 2)

theorem treeValue_roundtrip :
    ∀ v : Value, isTreeValue v = true →
      yamlValueToTreeValue (treeValueToYamlValue v) = some v
  | .treeBranch items, h => by
    have hb : isTreeBranch items = true := by simpa [isTreeValue] using h
    simp [treeValueToYamlValue, yamlValueToTreeValue,
      treeBranch_roundtrip items hb]
  | .str s, h => yamlValueToTreeValue_id _ h
  | .boolean b, h => yamlValueToTreeValue_id _ h
  | .int n, h => yamlValueToTreeValue_id _ h
  | .null, h => yamlValueToTreeValue_id _ h
  | .slice xs, h => yamlValueToTreeValue_id _ h
  | .goMap entries, h => by simp [isTreeValue] at h
  | .mapSlice entries, h => by simp [isTreeValue] at h
termination_by v _ => (sizeOf v, 1)

end

mutual

theorem yamlValueToTreeValue_total :
    ∀ v : Value, allStringKeys v = true → (yamlValueToTreeValue v).isSome = true
  | .str _, _ => rfl
  | .boolean _, _ => rfl
  | .int _, _ => rfl
  | .null, _ => rfl
  | .treeBranch _, _ => rfl
  | .goMap entries, h => by
    have he : allStringKeysEntries entries = true := by
      simpa [allStringKeys] using h
    obtain ⟨b, hb⟩ :=
      Option.isSome_iff_exists.mp (yamlMapToTreeBranch_total entries he)
    simp [yamlValueToTreeValue, hb]
  | .mapSlice entries, h => by
    have he : allStringKeysEntries entries = true := by
      simpa [allStringKeys] using h
    obtain ⟨b, hb⟩ :=
      Option.isSome_iff_exists.mp (mapSliceToTreeBranch_total entries he)
    simp [yamlValueToTreeValue, hb]
  | .slice xs, h => by
    have hl : allStringKeysList xs = true := by simpa [allStringKeys] using h
    obtain ⟨b, hb⟩ :=
      Option.isSome_iff_exists.mp (yamlSliceToTreeValue_total xs hl)
    simp [yamlValueToTreeValue, hb]
termination_by v _ => sizeOf v

theorem mapSliceToTreeBranch_total :
    ∀ entries : List (Value × Value), allStringKeysEntries entries = true →
      (mapSliceToTreeBranch entries).isSome = true
  | [], _ => rfl
  | (k, v) :: rest, h => by
    have hk : (asString k).isSome = true := by
      have := h; simp [allStringKeysEntries] at this; exact this.1.1
    have hv : allStringKeys v = true := by
      have := h; simp [allStringKeysEntries] at this; exact this.1.2
    have hr : allStringKeysEntries rest = true := by
      have := h; simp [allStringKeysEntries] at this; exact this.2
    obtain ⟨ks, hks⟩ := Option.isSome_iff_exists.mp hk
    obtain ⟨tv, htv⟩ :=
      Option.isSome_iff_exists.mp (yamlValueToTreeValue_total v hv)
    obtain ⟨br, hbr⟩ :=
      Option.isSome_iff_exists.mp (mapSliceToTreeBranch_total rest hr)
    simp [mapSliceToTreeBranch, hks, htv, hbr]
termination_by entries _ => sizeOf entries

theorem yamlMapToTreeBranch_total :
    ∀ entries : List (Value × Value), allStringKeysEntries entries = true →
      (yamlMapToTreeBranch entries).isSome = true
  | [], _ => rfl
  | (k, v) :: rest, h => by
    have hk : (asString k).isSome = true := by
      have := h; simp [allStringKeysEntries] at this; exact this.1.1
    have hv : allStringKeys v = true := by
      have := h; simp [allStringKeysEntries] at this; exact this.1.2
    have hr : allStringKeysEntries rest = true := by
      have := h; simp [allStringKeysEntries] at this; exact this.2
    obtain ⟨ks, hks⟩ := Option.isSome_iff_exists.mp hk
    obtain ⟨tv, htv⟩ :=
      Option.isSome_iff_exists.mp (yamlValueToTreeValue_total v hv)
    obtain ⟨br, hbr⟩ :=
      Option.isSome_iff_exists.mp (yamlMapToTreeBranch_total rest hr)
    simp [yamlMapToTreeBranch, hks, htv, hbr]
termination_by entries _ => sizeOf entries

theorem yamlSliceToTreeValue_total :
    ∀ xs : List Value, allStringKeysList xs = true →
      (yamlSliceToTreeValue xs).isSome = true
  | [], _ => rfl
  | x :: rest, h => by
    have h1 : allStringKeys x = true := by
      have := h; simp [allStringKeysList] at this; exact this.1
    have h2 : allStringKeysList rest = true := by
      have := h; simp [allStringKeysList] at this; exact this.2
    obtain ⟨y, hy⟩ :=
      Option.isSome_iff_exists.mp (yamlValueToTreeValue_total x h1)
    obtain ⟨ys, hys⟩ :=
      Option.isSome_iff_exists.mp (yamlSliceToTreeValue_total rest h2)
    simp [yamlSliceToTreeValue, hy, hys]
termination_by xs _ => sizeOf xs

end

/-- Claim C9: under the precondition that every mapping key at every depth is
a string, the key conversions of `mapSliceToTreeBranch` and
`yamlMapToTreeBranch` never fail (the conversion is total); and for a parsed
document containing a non-string mapping key, the embedded `Load` returns
neither a value nor an error — the unchecked key assertion is reachable. -/
theorem c9_string_keys_totality_and_panic :
    (∀ entries, allStringKeysEntries entries = true →
      (mapSliceToTreeBranch entries).isSome = true) ∧
    (∀ entries, allStringKeysEntries entries = true →
      (yamlMapToTreeBranch entries).isSome = true) ∧
    (∀ v, allStringKeys v = true → (yamlValueToTreeValue v).isSome = true) ∧
    Load (.ok [(Value.int 1, Value.null)]) = none :=
  ⟨mapSliceToTreeBranch_total, yamlMapToTreeBranch_total,
    yamlValueToTreeValue_total, rfl⟩

/-- Witness for C9 on a concrete nested document with string keys only. -/
theorem c9_string_keys_totality_and_panic_witness :
    (mapSliceToTreeBranch
      [(Value.str "a", Value.goMap [(Value.str "b", Value.int 1)]),
       (Value.str "c", Value.slice [Value.mapSlice [(Value.str "d", Value.null)]])]).isSome
      = true :=
  c9_string_keys_totality_and_panic.1
    [(Value.str "a", Value.goMap [(Value.str "b", Value.int 1)]),
     (Value.str "c", Value.slice [Value.mapSlice [(Value.str "d", Value.null)]])]
    (by decide)

/-- Claim C5: round trip of the tree/yaml conversion — for every tree branch
whose values are scalars, nested branches or lists of such values, converting
with `treeBranchToYamlMap` and back with `mapSliceToTreeBranch` returns the
original branch exactly (and likewise for a single tree value through
`treeValueToYamlValue`/`yamlValueToTreeValue`). -/
theorem c5_tree_yaml_roundtrip :
    (∀ items : TreeBranch, isTreeBranch items = true →
      mapSliceToTreeBranch (treeBranchToYamlMap items) = some items) ∧
    (∀ v : Value, isTreeValue v = true →
      yamlValueToTreeValue (treeValueToYamlValue v) = some v) :=
  ⟨treeBranch_roundtrip, treeValue_roundtrip⟩

/-- Witness for C5 on a concrete branch with a scalar, a nested branch and a
list value. -/
theorem c5_tree_yaml_roundtrip_witness :
    mapSliceToTreeBranch (treeBranchToYamlMap
      [("name", Value.str "prod-db"), ("replicas", Value.int 3),
       ("nested", Value.treeBranch [("k", Value.boolean true)]),
       ("list", Value.slice [Value.int 1, Value.treeBranch [("x", Value.null)]])]) =
      some [("name", Value.str "prod-db"), ("replicas", Value.int 3),
        ("nested", Value.treeBranch [("k", Value.boolean true)]),
        ("list", Value.slice [Value.int 1, Value.treeBranch [("x", Value.null)]])] :=
  c5_tree_yaml_roundtrip.1
    [("name", Value.str "prod-db"), ("replicas", Value.int 3),
     ("nested", Value.treeBranch [("k", Value.boolean true)]),
     ("list", Value.slice [Value.int 1, Value.treeBranch [("x", Value.null)]])]
    (by decide)

/-- Witness for C1 on a concrete two-entry MapSlice. -/
theorem c1_parser_order_preserved_witness :
    (([("a", Value.int 1), ("b", Value.str "x")] : TreeBranch))[1]? =
      (([(Value.str "a", Value.int 1), (Value.str "b", Value.str "x")] :
          List (Value × Value)))[1]?.bind fun e =>
        (asString e.1).bind fun ks =>
          (yamlValueToTreeValue e.2).map fun tv => (ks, tv) :=
  c1_parser_order_preserved.1
    [(Value.str "a", Value.int 1), (Value.str "b", Value.str "x")]
    [("a", Value.int 1), ("b", Value.str "x")] rfl 1

theorem kmsSourcesOf_shape (data : List (Value × Value)) (ks : List KeySource)
    (h : kmsSourcesOf data = some ks) :
    ks = [] ∨ ∃ keys, ks = [⟨"kms", keys⟩] := by
  simp only [kmsSourcesOf] at h
  split at h
  · cases h
    exact Or.inl rfl
  case _ l hl =>
    rcases hr : kmsEntriesLoop [] l with _ | r
    · rw [kmsEntries, hr] at h
      simp at h
    · rw [kmsEntries, hr] at h
      cases r with
      | ok keys =>
        simp at h
        exact Or.inr ⟨keys, h.symm⟩
      | error e =>
        simp at h
        exact Or.inl h.symm

theorem pgpSourcesOf_shape (data : List (Value × Value)) (ks : List KeySource)
    (h : pgpSourcesOf data = some ks) :
    ks = [] ∨ ∃ keys, ks = [⟨"pgp", keys⟩] := by
  simp only [pgpSourcesOf] at h
  split at h
  · cases h
    exact Or.inl rfl
  case _ l hl =>
    rcases hr : pgpEntriesLoop [] l with _ | r
    · rw [pgpEntries, hr] at h
      simp at h
    · rw [pgpEntries, hr] at h
      cases r with
      | ok keys =>
        simp at h
        exact Or.inr ⟨keys, h.symm⟩
      | error e =>
        simp at h
        exact Or.inl h.symm

theorem loadMetadataData_keysources (data : List (Value × Value)) (md : Metadata)
    (h : loadMetadataData data = some (.ok md)) :
    ∃ ksKms ksPgp, kmsSourcesOf data = some ksKms ∧
      pgpSourcesOf data = some ksPgp ∧ md.KeySources = ksKms ++ ksPgp := by
  simp only [loadMetadataData] at h
  split at h
  · cases h
  case _ mac hmac =>
    split at h
    · cases h
    case _ lmStr hlm =>
      split at h
      · cases h
      case _ lastModified hpd =>
        split at h
        · cases h
        case _ suffix hsuf =>
          split at h
          · cases h
          case _ version hver =>
            split at h
            · cases h
            case _ ksKms hkms =>
              split at h
              · cases h
              case _ ksPgp hpgp =>
                cases h
                exact ⟨ksKms, ksPgp, hkms, hpgp, rfl⟩

/-- Claim C8: the KeySources collection built by `LoadMetadata` lists at most
one `"kms"` source and at most one `"pgp"` source, in that fixed order, and
no other kinds — whatever the input document (in particular independent of the
order of the kms and pgp blocks, which are found by key lookup). -/
theorem c8_keysources_kinds_and_order
    (parsed : Except String (List (Value × Value))) (md : Metadata)
    (h : LoadMetadata parsed = some (.ok md)) :
    (md.KeySources.map KeySource.Name).Sublist ["kms", "pgp"] := by
  rcases parsed with e | encoded
  · simp [LoadMetadata] at h
  · simp only [LoadMetadata, loadMetadataFromSops] at h
    rcases hv : remarshalToMap (lookupGo encoded "sops") with e | data
    · rw [hv] at h; simp at h
    · rw [hv] at h
      obtain ⟨ksKms, ksPgp, hk, hp, heq⟩ := loadMetadataData_keysources data md h
      rw [heq, List.map_append]
      have s1 : (ksKms.map KeySource.Name).Sublist ["kms"] := by
        rcases kmsSourcesOf_shape data ksKms hk with rfl | ⟨keys, rfl⟩
        · exact List.nil_sublist _
        · exact List.Sublist.refl _
      have s2 : (ksPgp.map KeySource.Name).Sublist ["pgp"] := by
        rcases pgpSourcesOf_shape data ksPgp hp with rfl | ⟨keys, rfl⟩
        · exact List.nil_sublist _
        · exact List.Sublist.refl _
      exact List.Sublist.append s1 s2

/-- Witness for C8 on a concrete document carrying both a kms and a pgp
block. -/
theorem c8_keysources_kinds_and_order_witness :
    (((⟨"MAC", "2015-10-21T07:28:00Z", "_unencrypted", "1.0",
        [⟨"kms", [.kms ⟨"arn1", "", "e1", "2015-10-21T07:28:00Z"⟩]⟩,
         ⟨"pgp", [.pgp ⟨"fp1", "e2", "2015-10-21T07:28:00Z"⟩]⟩]⟩ :
        Metadata)).KeySources.map KeySource.Name).Sublist ["kms", "pgp"] :=
  c8_keysources_kinds_and_order
    (.ok [(Value.str "sops", Value.goMap
      [(Value.str "mac", Value.str "MAC"),
       (Value.str "lastmodified", Value.str "2015-10-21T07:28:00Z"),
       (Value.str "unencrypted_suffix", Value.str "_unencrypted"),
       (Value.str "version", Value.str "1.0"),
       (Value.str "kms", Value.slice
         [Value.goMap [(Value.str "arn", Value.str "arn1"),
                       (Value.str "enc", Value.str "e1"),
                       (Value.str "created_at", Value.str "2015-10-21T07:28:00Z")]]),
       (Value.str "pgp", Value.slice
         [Value.goMap [(Value.str "fp", Value.str "fp1"),
                       (Value.str "enc", Value.str "e2"),
                       (Value.str "created_at", Value.str "2015-10-21T07:28:00Z")]])])])
    ⟨"MAC", "2015-10-21T07:28:00Z", "_unencrypted", "1.0",
      [⟨"kms", [.kms ⟨"arn1", "", "e1", "2015-10-21T07:28:00Z"⟩]⟩,
       ⟨"pgp", [.pgp ⟨"fp1", "e2", "2015-10-21T07:28:00Z"⟩]⟩]⟩
    (by rfl)

/-- Counterexample to claim C10 as stated: `LoadMetadata` can return
normally without the stated precondition.  On a `sops` mapping holding only a
string `mac` and an unparseable `lastmodified` string, the field reads return
an ordinary error value — yet the mapping has no `version` (or
`unencrypted_suffix`) field at all, so a normal return does not imply the
four-field precondition. -/
theorem c10_counterexample :
    loadMetadataData
      [(Value.str "mac", Value.str "m"),
       (Value.str "lastmodified", Value.str "garbage")] =
      some (.error "Could not parse last modified date") ∧
    asString (lookupGo
      [(Value.str "mac", Value.str "m"),
       (Value.str "lastmodified", Value.str "garbage")] "version") = none :=
  ⟨rfl, rfl⟩

/-- Amended claim C10: when the `sops` mapping carries `mac`, `lastmodified`,
`unencrypted_suffix` and `version` as string values, the four unchecked field
assertions all succeed and (with no kms/pgp lists present) the call returns
normally; and for a mapping lacking one of the four fields the embedded call
panics (`none`) instead of returning an error value.  (The converse does not
hold: an early error return, e.g. an unparseable `lastmodified`, happens
before the remaining fields are read.) -/
theorem c10_amended_assertion_safety :
    (∀ data : List (Value × Value),
      (asString (lookupGo data "mac")).isSome = true →
      (asString (lookupGo data "lastmodified")).isSome = true →
      (asString (lookupGo data "unencrypted_suffix")).isSome = true →
      (asString (lookupGo data "version")).isSome = true →
      asSliceOk (lookupGo data "kms") = none →
      asSliceOk (lookupGo data "pgp") = none →
      ∃ r, loadMetadataData data = some r) ∧
    loadMetadataData
      [(Value.str "lastmodified", Value.str "2015-10-21T07:28:00Z"),
       (Value.str "unencrypted_suffix", Value.str "_unencrypted"),
       (Value.str "version", Value.str "1.0")] = none := by
  constructor
  · intro data h1 h2 h3 h4 hk hp
    obtain ⟨mac, hmac⟩ := Option.isSome_iff_exists.mp h1
    obtain ⟨lm, hlm⟩ := Option.isSome_iff_exists.mp h2
    obtain ⟨suf, hsuf⟩ := Option.isSome_iff_exists.mp h3
    obtain ⟨ver, hver⟩ := Option.isSome_iff_exists.mp h4
    have hkms : kmsSourcesOf data = some [] := by rw [kmsSourcesOf, hk]
    have hpgp : pgpSourcesOf data = some [] := by rw [pgpSourcesOf, hp]
    rcases hpd : parseDate lm with _ | t
    · exact ⟨.error "Could not parse last modified date",
        by simp [loadMetadataData, hmac, hlm, hpd]⟩
    · exact ⟨.ok ⟨mac, t, suf, ver, []⟩,
        by simp [loadMetadataData, hmac, hlm, hpd, hsuf, hver, hkms, hpgp]⟩
  · rfl

/-- Witness for C10's amended theorem on a concrete four-field mapping. -/
theorem c10_amended_assertion_safety_witness :
    ∃ r, loadMetadataData
      [(Value.str "mac", Value.str "m"),
       (Value.str "lastmodified", Value.str "2015-10-21T07:28:00Z"),
       (Value.str "unencrypted_suffix", Value.str "_u"),
       (Value.str "version", Value.str "1.0")] = some r :=
  c10_amended_assertion_safety.1
    [(Value.str "mac", Value.str "m"),
     (Value.str "lastmodified", Value.str "2015-10-21T07:28:00Z"),
     (Value.str "unencrypted_suffix", Value.str "_u"),
     (Value.str "version", Value.str "1.0")]
    rfl rfl rfl rfl rfl rfl

theorem kmsEntriesLoop_error :
    ∀ (l : List Value) (acc : List MasterKey),
      (∀ v ∈ l, kmsEntryAssertsOk v = true) →
      (∃ v ∈ l, kmsEntryDateOk v = false) →
      kmsEntriesLoop acc l = some (.error "Could not parse creation date") := by
  intro l
  induction l with
  | nil =>
    intro acc _ hbad
    obtain ⟨v, hv, _⟩ := hbad
    exact absurd hv (List.not_mem_nil v)
  | cons v rest ih =>
    intro acc hok hbad
    have hv := hok v (List.mem_cons_self v rest)
    cases v with
    | goMap m =>
      simp only [kmsEntryAssertsOk] at hv
      obtain ⟨⟨ha, he⟩, hc⟩ := by simpa using hv
      obtain ⟨arn, harn⟩ := Option.isSome_iff_exists.mp ha
      obtain ⟨enc, henc⟩ := Option.isSome_iff_exists.mp he
      obtain ⟨ca, hca⟩ := Option.isSome_iff_exists.mp hc
      rcases hpd : parseDate ca with _ | t
      · simp [kmsEntriesLoop, asGoMapAssert, harn, henc, hca, hpd]
      · have hbadrest : ∃ w ∈ rest, kmsEntryDateOk w = false := by
          obtain ⟨w, hw, hwf⟩ := hbad
          rcases List.mem_cons.mp hw with rfl | hw2
          · simp [kmsEntryDateOk, hca, hpd] at hwf
          · exact ⟨w, hw2, hwf⟩
        have hrest := fun acc2 => ih acc2
          (fun w hw => hok w (List.mem_cons_of_mem _ hw)) hbadrest
        simp only [kmsEntriesLoop, asGoMapAssert, harn, henc, hca, hpd]
        exact hrest _
    | str s => simp [kmsEntryAssertsOk] at hv
    | boolean b => simp [kmsEntryAssertsOk] at hv
    | int n => simp [kmsEntryAssertsOk] at hv
    | null => simp [kmsEntryAssertsOk] at hv
    | slice xs => simp [kmsEntryAssertsOk] at hv
    | mapSlice es => simp [kmsEntryAssertsOk] at hv
    | treeBranch items => simp [kmsEntryAssertsOk] at hv

theorem kmsEntriesLoop_ok :
    ∀ (l : List Value) (acc : List MasterKey),
      (∀ v ∈ l, kmsEntryAssertsOk v = true ∧ kmsEntryDateOk v = true) →
      ∃ keys, kmsEntriesLoop acc l = some (.ok (acc ++ keys)) ∧
        keys.length = l.length := by
  intro l
  induction l with
  | nil =>
    intro acc _
    exact ⟨[], by simp [kmsEntriesLoop], rfl⟩
  | cons v rest ih =>
    intro acc hok
    have hv := (hok v (List.mem_cons_self v rest)).1
    have hd := (hok v (List.mem_cons_self v rest)).2
    cases v with
    | goMap m =>
      simp only [kmsEntryAssertsOk] at hv
      obtain ⟨⟨ha, he⟩, hc⟩ := by simpa using hv
      obtain ⟨arn, harn⟩ := Option.isSome_iff_exists.mp ha
      obtain ⟨enc, henc⟩ := Option.isSome_iff_exists.mp he
      obtain ⟨ca, hca⟩ := Option.isSome_iff_exists.mp hc
      simp only [kmsEntryDateOk, hca] at hd
      obtain ⟨t, hpd⟩ := Option.isSome_iff_exists.mp hd
      obtain ⟨keys, hk, hlen⟩ :=
        ih (acc ++ [MasterKey.kms
              ⟨arn, (asString (lookupGo m "role")).getD "", enc, t⟩])
          (fun w hw => hok w (List.mem_cons_of_mem _ hw))
      refine ⟨MasterKey.kms
          ⟨arn, (asString (lookupGo m "role")).getD "", enc, t⟩ :: keys, ?_, ?_⟩
      · simp only [kmsEntriesLoop, asGoMapAssert, harn, henc, hca, hpd]
        rw [hk]
        simp
      · simp [hlen]
    | str s => simp [kmsEntryAssertsOk] at hv
    | boolean b => simp [kmsEntryAssertsOk] at hv
    | int n => simp [kmsEntryAssertsOk] at hv
    | null => simp [kmsEntryAssertsOk] at hv
    | slice xs => simp [kmsEntryAssertsOk] at hv
    | mapSlice es => simp [kmsEntryAssertsOk] at hv
    | treeBranch items => simp [kmsEntryAssertsOk] at hv

/-- Counterexample to claim C3 as stated: a kms list holding a well-formed
entry and a sibling with an unparseable `created_at` does not keep the
well-formed sibling.  `kmsEntries` on the well-formed entry alone succeeds,
yet `LoadMetadata` over the two-entry list returns (without a document-level
error) a Metadata whose KeySources is empty — there is no kms KeySource at
all, not a shorter one. -/
theorem c3_counterexample :
    kmsEntries [Value.goMap
      [(Value.str "arn", Value.str "arn1"), (Value.str "enc", Value.str "e1"),
       (Value.str "created_at", Value.str "2015-10-21T07:28:00Z")]] =
      some (.ok ⟨"kms",
        [.kms ⟨"arn1", "", "e1", "2015-10-21T07:28:00Z"⟩]⟩) ∧
    loadMetadataData
      [(Value.str "mac", Value.str "MAC"),
       (Value.str "lastmodified", Value.str "2015-10-21T07:28:00Z"),
       (Value.str "unencrypted_suffix", Value.str "s"),
       (Value.str "version", Value.str "1.0"),
       (Value.str "kms", Value.slice
         [Value.goMap [(Value.str "arn", Value.str "arn1"),
                       (Value.str "enc", Value.str "e1"),
                       (Value.str "created_at", Value.str "2015-10-21T07:28:00Z")],
          Value.goMap [(Value.str "arn", Value.str "arn2"),
                       (Value.str "enc", Value.str "e2"),
                       (Value.str "created_at", Value.str "garbage")]])] =
      some (.ok ⟨"MAC", "2015-10-21T07:28:00Z", "s", "1.0", []⟩) :=
  ⟨rfl, rfl⟩

/-- Amended claim C3: a malformed `created_at` on any kms entry is not
skipped per-entry — `kmsEntries` aborts with an error (which `LoadMetadata`
turns into dropping the whole kms KeySource, well-formed siblings included,
while still returning without a document-level error); only a list whose
entries are all well-formed yields a KeySource, and then with one key per
entry.  A missing required scalar field panics (`none`) instead of being
skipped. -/
theorem c3_amended_malformed_entry_drops_source :
    (∀ l : List Value, (∀ v ∈ l, kmsEntryAssertsOk v = true) →
      (((∃ v ∈ l, kmsEntryDateOk v = false) →
        kmsEntries l = some (.error "Could not parse creation date")) ∧
       ((∀ v ∈ l, kmsEntryDateOk v = true) →
        ∃ keys, kmsEntries l = some (.ok ⟨"kms", keys⟩) ∧
          keys.length = l.length))) ∧
    kmsEntries [Value.goMap [(Value.str "enc", Value.str "e")]] = none := by
  refine ⟨?_, rfl⟩
  intro l hasserts
  constructor
  · intro hbad
    rw [kmsEntries, kmsEntriesLoop_error l [] hasserts hbad]
    rfl
  · intro hgood
    obtain ⟨keys, hk, hlen⟩ :=
      kmsEntriesLoop_ok l [] (fun v hv => ⟨hasserts v hv, hgood v hv⟩)
    refine ⟨keys, ?_, hlen⟩
    rw [kmsEntries, hk]
    simp [Except.map]

/-- Witness for C3's amended theorem on a concrete singleton well-formed kms
list. -/
theorem c3_amended_malformed_entry_drops_source_witness :
    ∃ keys, kmsEntries [Value.goMap
        [(Value.str "arn", Value.str "arn1"), (Value.str "enc", Value.str "e1"),
         (Value.str "created_at", Value.str "2015-10-21T07:28:00Z")]] =
      some (.ok ⟨"kms", keys⟩) ∧ keys.length = 1 :=
  (c3_amended_malformed_entry_drops_source.1
    [Value.goMap
      [(Value.str "arn", Value.str "arn1"), (Value.str "enc", Value.str "e1"),
       (Value.str "created_at", Value.str "2015-10-21T07:28:00Z")]]
    (fun v hv => by
      rcases List.mem_cons.mp hv with rfl | h2
      · rfl
      · exact absurd h2 (List.not_mem_nil v))).2
    (fun v hv => by
      rcases List.mem_cons.mp hv with rfl | h2
      · rfl
      · exact absurd h2 (List.not_mem_nil v))

theorem sopsStripLoop_scan :
    ∀ (fuel1 i : Nat) (arr : List (Value × Value)) (m rest : Nat),
      i + fuel1 ≤ arr.length →
      (∀ j e, i ≤ j → j < i + fuel1 → arr[j]? = some e →
        keyIsSops e.1 = false) →
      sopsStripLoop arr m i (fuel1 + rest) = sopsStripLoop arr m (i + fuel1) rest := by
  intro fuel1
  induction fuel1 with
  | zero =>
    intro i arr m rest _ _
    simp only [Nat.zero_add, Nat.add_zero]
  | succ f ih =>
    intro i arr m rest hlen hns
    rw [show (f + 1) + rest = (f + rest) + 1 from by omega]
    have hi : i < arr.length := by omega
    obtain ⟨e, he⟩ : ∃ e, arr[i]? = some e := by
      rw [List.getElem?_eq_getElem hi]
      exact ⟨_, rfl⟩
    have hns_i := hns i e (Nat.le_refl i) (by omega) he
    simp only [sopsStripLoop, he, hns_i]
    rw [show i + (f + 1) = (i + 1) + f from by omega]
    exact ih (i + 1) arr m rest (by omega)
      (fun j e2 hj1 hj2 hje => hns j e2 (by omega) (by omega) hje)

theorem sopsStrip_nosops (data : List (Value × Value))
    (h : ∀ x ∈ data, keyIsSops x.1 = false) :
    sopsStrip data = some data := by
  have hscan := sopsStripLoop_scan data.length 0 data data.length 0 (by omega)
    (fun j e _ _ hje => h e (List.getElem?_mem hje))
  rw [Nat.zero_add, Nat.add_zero] at hscan
  rw [sopsStrip, hscan]
  simp [sopsStripLoop, List.take_length]


theorem sopsStripLoop_scan_all (fuel i : Nat) (arr : List (Value × Value)) (m : Nat)
    (hlen : i + fuel ≤ arr.length)
    (hns : ∀ j e, i ≤ j → j < i + fuel → arr[j]? = some e →
      keyIsSops e.1 = false) :
    sopsStripLoop arr m i fuel = some (arr, m) := by
  have h := sopsStripLoop_scan fuel i arr m 0 hlen hns
  rw [Nat.add_zero] at h
  rw [h]
  rfl

theorem sopsStrip_single (pre post : List (Value × Value)) (e : Value × Value)
    (hpre : ∀ x ∈ pre, keyIsSops x.1 = false)
    (he : keyIsSops e.1 = true)
    (hpost : ∀ x ∈ post, keyIsSops x.1 = false) :
    sopsStrip (pre ++ e :: post) = some (pre ++ post) := by
  have harrp : (pre ++ e :: post)[pre.length]? = some e := by
    rw [List.getElem?_append_right (Nat.le_refl pre.length)]
    simp
  have htake : (pre ++ e :: post).take pre.length = pre := List.take_left' rfl
  have hdrop1 : (pre ++ e :: post).drop (pre.length + 1) = post := by
    rw [show pre ++ e :: post = (pre ++ [e]) ++ post from by simp]
    exact List.drop_left' (by simp)
  have hlenA :
      ((pre ++ e :: post).drop ((pre ++ e :: post).length - 1)).length = 1 := by
    rw [List.length_drop]
    simp only [List.length_append, List.length_cons]
    omega
  have harr2 :
      (pre ++ e :: post).take pre.length ++
        ((pre ++ e :: post).drop (pre.length + 1)).take
          ((pre ++ e :: post).length - (pre.length + 1)) ++
        (pre ++ e :: post).drop ((pre ++ e :: post).length - 1) =
      (pre ++ post) ++ (pre ++ e :: post).drop ((pre ++ e :: post).length - 1) := by
    rw [htake, hdrop1,
      show (pre ++ e :: post).length - (pre.length + 1) = post.length from by
        simp only [List.length_append, List.length_cons]; omega,
      List.take_length, List.append_assoc]
  have main : sopsStripLoop (pre ++ e :: post) (pre ++ e :: post).length 0
      (pre ++ e :: post).length =
      some ((pre ++ post) ++
          (pre ++ e :: post).drop ((pre ++ e :: post).length - 1),
        (pre ++ e :: post).length - 1) := by
    have e1 := sopsStripLoop_scan pre.length 0 (pre ++ e :: post)
      (pre ++ e :: post).length (1 + post.length)
      (by simp only [List.length_append, List.length_cons]; omega)
      (fun j e2 _ hj hje => by
        have hj2 : j < pre.length := by omega
        rw [List.getElem?_append_left hj2] at hje
        exact hpre e2 (List.getElem?_mem hje))
    rw [Nat.zero_add] at e1
    rw [show pre.length + (1 + post.length) = (pre ++ e :: post).length from by
      simp only [List.length_append, List.length_cons]; omega] at e1
    rw [e1]
    rw [show (1 : Nat) + post.length = post.length + 1 from by omega]
    simp only [sopsStripLoop, harrp, he, if_true]
    rw [if_pos (show pre.length + 1 ≤ (pre ++ e :: post).length from by
      simp only [List.length_append, List.length_cons]; omega)]
    rw [harr2]
    exact sopsStripLoop_scan_all post.length (pre.length + 1)
      ((pre ++ post) ++ (pre ++ e :: post).drop ((pre ++ e :: post).length - 1))
      ((pre ++ e :: post).length - 1)
      (by rw [List.length_append, hlenA, List.length_append]; omega)
      (fun j e2 hj1 hj2 hje => by
        by_cases hcase : j < pre.length + post.length
        · rw [List.getElem?_append_left (by simpa using hcase)] at hje
          rw [List.getElem?_append_right
            (by omega : pre.length ≤ j)] at hje
          exact hpost e2 (List.getElem?_mem hje)
        · rw [List.getElem?_append_right
            (by simp only [List.length_append]; omega)] at hje
          have hmem : e2 ∈
              (pre ++ e :: post).drop ((pre ++ e :: post).length - 1) :=
            List.getElem?_mem hje
          have hq1 : 1 ≤ post.length := by omega
          have hAeq : (pre ++ e :: post).drop ((pre ++ e :: post).length - 1) =
              post.drop (post.length - 1) := by
            rw [show (pre ++ e :: post).length - 1 =
                (pre.length + 1) + (post.length - 1) from by
              simp only [List.length_append, List.length_cons]; omega]
            rw [← List.drop_drop, hdrop1]
          rw [hAeq] at hmem
          exact hpost e2 (List.mem_of_mem_drop hmem))
  rw [sopsStrip, main]
  have hfin : ((pre ++ post) ++
      (pre ++ e :: post).drop ((pre ++ e :: post).length - 1)).take
        ((pre ++ e :: post).length - 1) = pre ++ post :=
    List.take_left' (by
      simp only [List.length_append, List.length_cons]; omega)
  show some (((pre ++ post) ++
      (pre ++ e :: post).drop ((pre ++ e :: post).length - 1)).take
        ((pre ++ e :: post).length - 1)) = some (pre ++ post)
  rw [hfin]

theorem asString_eq_some {v : Value} {s : String} (h : asString v = some s) :
    v = .str s := by
  cases v <;> simp_all [asString]

theorem countP_sops_decomp (l : List (Value × Value))
    (h : l.countP (fun x => keyIsSops x.1) ≤ 1) :
    (∀ x ∈ l, keyIsSops x.1 = false) ∨
    ∃ pre e post, l = pre ++ e :: post ∧ keyIsSops e.1 = true ∧
      (∀ x ∈ pre, keyIsSops x.1 = false) ∧
      (∀ x ∈ post, keyIsSops x.1 = false) := by
  induction l with
  | nil => exact Or.inl (fun x hx => absurd hx (List.not_mem_nil x))
  | cons a rest ih =>
    cases ha : keyIsSops a.1 with
    | true =>
      have hc : rest.countP (fun x => keyIsSops x.1) = 0 := by
        rw [List.countP_cons_of_pos _ _ (by simpa using ha)] at h
        omega
      have hrest : ∀ x ∈ rest, keyIsSops x.1 = false := by
        intro x hx
        have := List.countP_eq_zero.mp hc x hx
        simpa using this
      exact Or.inr ⟨[], a, rest, rfl, ha,
        fun x hx => absurd hx (List.not_mem_nil x), hrest⟩
    | false =>
      have h2 : rest.countP (fun x => keyIsSops x.1) ≤ 1 := by
        rw [List.countP_cons_of_neg _ _ (by simp [ha])] at h
        exact h
      rcases ih h2 with hall | ⟨pre, e, post, heq, he, hpre, hpost⟩
      · refine Or.inl ?_
        intro x hx
        rcases List.mem_cons.mp hx with rfl | hx2
        · exact ha
        · exact hall x hx2
      · refine Or.inr ⟨a :: pre, e, post, by rw [heq]; rfl, he, ?_, hpost⟩
        intro x hx
        rcases List.mem_cons.mp hx with rfl | hx2
        · exact ha
        · exact hpre x hx2

theorem mapSliceToTreeBranch_keys (l : List (Value × Value)) (b : TreeBranch)
    (hl : ∀ x ∈ l, keyIsSops x.1 = false)
    (hb : mapSliceToTreeBranch l = some b) :
    ∀ item ∈ b, item.1 ≠ "sops" := by
  induction l generalizing b with
  | nil =>
    simp only [mapSliceToTreeBranch] at hb
    cases hb
    intro item h
    exact absurd h (List.not_mem_nil item)
  | cons a rest ih =>
    obtain ⟨k, v⟩ := a
    simp only [mapSliceToTreeBranch] at hb
    split at hb
    case _ ks tv br hk hv hr =>
      cases hb
      intro item hitem
      rcases List.mem_cons.mp hitem with rfl | h2
      · have hks := hl (k, v) (List.mem_cons_self _ _)
        rw [asString_eq_some hk] at hks
        simpa [keyIsSops] using hks
      · exact ih br (fun x hx => hl x (List.mem_cons_of_mem _ hx)) hr item h2
    case _ => exact absurd hb (by simp)

/-- Claim C2: for every parsed document with at most one top-level `"sops"`
entry (in particular whenever top-level keys are unique), when `Load`
succeeds its result contains no item keyed `"sops"`, and it is exactly the
conversion of the document with the `"sops"` entry removed — every other
top-level item kept once, in original order. -/
theorem c2_load_strips_sops (data : List (Value × Value)) (b : TreeBranch)
    (hcount : data.countP (fun x => keyIsSops x.1) ≤ 1)
    (hload : Load (.ok data) = some (.ok b)) :
    (∀ item ∈ b, item.1 ≠ "sops") ∧
    mapSliceToTreeBranch (data.filter fun x => !keyIsSops x.1) = some b := by
  rcases countP_sops_decomp data hcount with hall | ⟨pre, e, post, heq, he, hpre, hpost⟩
  · have hstrip := sopsStrip_nosops data hall
    have hfilter : data.filter (fun x => !keyIsSops x.1) = data :=
      List.filter_eq_self.mpr (fun a ha => by simp [hall a ha])
    simp only [Load] at hload
    rw [hstrip] at hload
    have hload2 : Option.map Except.ok (mapSliceToTreeBranch data) =
        some (.ok b) := hload
    have hms : mapSliceToTreeBranch data = some b := by
      rcases hm : mapSliceToTreeBranch data with _ | b2
      · rw [hm] at hload2; simp at hload2
      · rw [hm] at hload2
        simp at hload2
        rw [hload2]
    exact ⟨mapSliceToTreeBranch_keys data b hall hms, by rw [hfilter]; exact hms⟩
  · subst heq
    have hstrip := sopsStrip_single pre post e hpre he hpost
    have hfilter : (pre ++ e :: post).filter (fun x => !keyIsSops x.1) =
        pre ++ post := by
      rw [List.filter_append, List.filter_cons]
      rw [List.filter_eq_self.mpr (fun a ha => by simp [hpre a ha]),
          List.filter_eq_self.mpr (fun a ha => by simp [hpost a ha])]
      simp [he]
    simp only [Load] at hload
    rw [hstrip] at hload
    have hload2 : Option.map Except.ok (mapSliceToTreeBranch (pre ++ post)) =
        some (.ok b) := hload
    have hms : mapSliceToTreeBranch (pre ++ post) = some b := by
      rcases hm : mapSliceToTreeBranch (pre ++ post) with _ | b2
      · rw [hm] at hload2; simp at hload2
      · rw [hm] at hload2
        simp at hload2
        rw [hload2]
    have hnos : ∀ x ∈ pre ++ post, keyIsSops x.1 = false := by
      intro x hx
      rcases List.mem_append.mp hx with h1 | h2
      · exact hpre x h1
      · exact hpost x h2
    exact ⟨mapSliceToTreeBranch_keys _ b hnos hms, by rw [hfilter]; exact hms⟩

/-- Witness for C2 on a concrete three-entry document whose middle entry is
the `"sops"` block. -/
theorem c2_load_strips_sops_witness :
    (∀ item ∈ ([("a", Value.int 1), ("b", Value.int 2)] : TreeBranch),
      item.1 ≠ "sops") ∧
    mapSliceToTreeBranch
      (([(Value.str "a", Value.int 1), (Value.str "sops", Value.goMap []),
         (Value.str "b", Value.int 2)]).filter fun x => !keyIsSops x.1) =
      some [("a", Value.int 1), ("b", Value.int 2)] :=
  c2_load_strips_sops
    [(Value.str "a", Value.int 1), (Value.str "sops", Value.goMap []),
     (Value.str "b", Value.int 2)]
    [("a", Value.int 1), ("b", Value.int 2)]
    (by decide) rfl
